import Mathlib

/-!
Verification of the postgres-utils helper library (src/index.ts) against its
specification. The TypeScript source is shallowly embedded: strings are Lean
`String`s (lists of characters), JavaScript runtime values that can appear in
the field mappings are the inductive types `Value` / `JsVal`, objects are
association lists in insertion order, and the two synchronous failure modes
(`throw new Error("Invalid comparison operator")` and the TypeError raised by
calling `.split` on a non-string) are an `Except Err` result.
-/

namespace PgUtils

/-- ASCII lowercase letter test, the semantics of the regex class `[a-z]`. -/
def isLowerAZ (c : Char) : Bool := 97 ≤ c.toNat && c.toNat ≤ 122

/-- ASCII uppercase letter test, the semantics of the regex class `[A-Z]`. -/
def isUpperAZ (c : Char) : Bool := 65 ≤ c.toNat && c.toNat ≤ 90

/-- ASCII digit test, the semantics of the regex class `[0-9]`. -/
def isDigitChar (c : Char) : Bool := 48 ≤ c.toNat && c.toNat ≤ 57

/-- Embeds `camelToSnakeCaseString`: `s.replace(/[A-Z]/g, m => "_" + m.toLowerCase())`.
The global regex visits every character; each ASCII uppercase letter is replaced
by an underscore followed by its lowercase form; all other characters are kept. -/
def camelToSnake : List Char → List Char
  | [] => []
  | c :: rest =>
    if isUpperAZ c then '_' :: Char.toLower c :: camelToSnake rest
    else c :: camelToSnake rest

/-- String wrapper for `camelToSnake` (source function `camelToSnakeCaseString`). -/
def camelToSnakeCaseString (s : String) : String := ⟨camelToSnake s.data⟩

/-- Embeds `snakeToCamelCaseString`: `s.replace(/_[a-z]/g, m => m.charAt(1).toUpperCase())`.
The global regex scans left to right; at an underscore immediately followed by an
ASCII lowercase letter, the two characters are replaced by the uppercased letter
and scanning resumes after the match; otherwise the character is kept. -/
def snakeToCamel : List Char → List Char
  | [] => []
  | [c] => [c]
  | c :: d :: rest =>
    if c = '_' then
      if isLowerAZ d then Char.toUpper d :: snakeToCamel rest
      else '_' :: snakeToCamel (d :: rest)
    else c :: snakeToCamel (d :: rest)

/-- String wrapper for `snakeToCamel` (source function `snakeToCamelCaseString`). -/
def snakeToCamelCaseString (s : String) : String := ⟨snakeToCamel s.data⟩

/-- Decimal digits of `n`, most significant first, computed with a fuel argument
so that the definition is structurally recursive (the fuel `n + 1` always
suffices since the argument at least halves each step). -/
def natToCharsAux (fuel : Nat) (n : Nat) : List Char :=
  match fuel with
  | 0 => []
  | fuel + 1 => if n = 0 then [] else natToCharsAux fuel (n / 10) ++ [Char.ofNat (48 + n % 10)]

/-- Decimal representation of a natural number, the semantics of JavaScript
number-to-string conversion (template interpolation, `toString`) for a
non-negative integer. -/
def natToChars (n : Nat) : List Char := if n = 0 then ['0'] else natToCharsAux (n + 1) n

/-- String form of `natToChars`. -/
def natStr (n : Nat) : String := ⟨natToChars n⟩

/-- Embeds JavaScript `String.prototype.split` with a single-character
separator: `"".split(sep) == [""]`, and every separator occurrence opens a new
(possibly empty) group. -/
def splitOnChar (sep : Char) : List Char → List (List Char)
  | [] => [[]]
  | c :: rest =>
    if c = sep then [] :: splitOnChar sep rest
    else
      match splitOnChar sep rest with
      | [] => [[c]]
      | g :: gs => (c :: g) :: gs

/-- Embeds JavaScript `Array.prototype.join`: empty array gives `""`, otherwise
the elements are interleaved with the separator. -/
def joinSep (sep : String) : List String → String
  | [] => ""
  | [x] => x
  | x :: xs => x ++ sep ++ joinSep sep xs

/-- Runtime values that the fragment builders receive in field mappings. -/
inductive Value where
  | vStr (s : String)
  | vInt (n : Int)
  | vNull
deriving DecidableEq, Repr

/-- An element of the parameter array built by `getWhereParams`: either a plain
value pushed by the scalar branch, or the whole split list pushed by the
IN / NOT IN branch. -/
inductive Param where
  | val (v : Value)
  | list (l : List String)
deriving DecidableEq, Repr

/-- The synchronous failure modes of `getWhereParams`: the explicit
`throw new Error("Invalid comparison operator")`, and the TypeError JavaScript
raises when `(v as string).split(",")` is evaluated with a non-string `v`. -/
inductive Err where
  | invalidOperator
  | typeError
deriving DecidableEq, Repr

/-- Embeds the `COMPARISON_OPERATORS_MAP` object literal, in source order. -/
def COMPARISON_OPERATORS_MAP : List (String × String) :=
  [("eq", "="), ("neq", "<>"), ("lt", "<"), ("lte", "<="), ("gt", ">"), ("gte", ">="),
   ("like", "LIKE"), ("notLike", "NOT LIKE"), ("ilike", "ILIKE"), ("notIlike", "NOT ILIKE"),
   ("in", "IN"), ("notIn", "NOT IN"), ("isNull", "IS NULL"), ("isNotNull", "IS NOT NULL")]

/-- The property names every object literal inherits from `Object.prototype`:
a read of `COMPARISON_OPERATORS_MAP[t]` for these `t` walks the prototype chain
and yields a truthy member (a built-in function, or `Object.prototype` itself
for the `__proto__` accessor), so the source's falsy check does not throw. -/
def OBJECT_PROTOTYPE_MEMBERS : List String :=
  ["constructor", "hasOwnProperty", "isPrototypeOf", "propertyIsEnumerable",
   "toLocaleString", "toString", "valueOf", "__defineGetter__", "__defineSetter__",
   "__lookupGetter__", "__lookupSetter__", "__proto__"]

/-- The text an inherited `Object.prototype` member produces when interpolated
into the template literal (as stringified by the V8 runtime Node-based callers
of this library run on): `__proto__` reads back `Object.prototype`, an object;
`constructor` is the `Object` constructor function; the rest are built-in
methods rendered in NativeFunction form. -/
def protoMemberText (t : String) : String :=
  if t = "__proto__" then "[object Object]"
  else if t = "constructor" then "function Object() \x7b [native code] \x7d"
  else "function " ++ t ++ "() \x7b [native code] \x7d"

/-- The property read `COMPARISON_OPERATORS_MAP[token]`: an own entry yields
its SQL operator text; otherwise an `Object.prototype` member name yields the
truthy inherited member; otherwise the read is `undefined` (`none`), which is
falsy and triggers the throw. An inherited member is represented directly by
the string it later interpolates as — this preserves every observable use the
source makes of it: it is truthy, the four strict-equality comparisons against
`"IS NULL"`, `"IS NOT NULL"`, `"IN"`, `"NOT IN"` are false for a function or
object exactly as they are for its rendered text, and the scalar branch
interpolates it into the emitted line. -/
def lookupOp (t : String) : Option String :=
  match COMPARISON_OPERATORS_MAP.find? (fun e => e.1 == t) with
  | some e => some e.2
  | none => if t ∈ OBJECT_PROTOTYPE_MEMBERS then some (protoMemberText t) else none

/-- Embeds the key-parsing prefix of the `getWhereParams` loop body: default the
operator to `=` and the field to the key; if the key contains a colon, split on
all colons, let the field be `tokens[0]` and resolve `tokens[1]` in the operator
table, throwing when the lookup produces a falsy result. -/
def parseKey (k : String) : Except Err (String × String) :=
  match splitOnChar ':' k.data with
  | f :: t :: _ =>
    match lookupOp ⟨t⟩ with
    | some op => Except.ok (⟨f⟩, op)
    | none => Except.error Err.invalidOperator
  | _ => Except.ok (k, "=")

/-- Embeds one iteration of the `Object.entries(whereParams).forEach` body of
`getWhereParams`, given the running parameter count (`params.length` before the
iteration). Returns the emitted line and the values pushed onto `params`. -/
def whereStep (paramsOffset count : Nat) (k : String) (v : Value) : Except Err (String × List Param) :=
  match parseKey k with
  | Except.error e => Except.error e
  | Except.ok (field, comparisonOperator) =>
    if comparisonOperator = "IS NULL" ∨ comparisonOperator = "IS NOT NULL" then
      Except.ok (camelToSnakeCaseString field ++ " " ++ comparisonOperator, [])
    else if comparisonOperator = "IN" ∨ comparisonOperator = "NOT IN" then
      match v with
      | Value.vStr s =>
        let arrayParam : List String := (splitOnChar ',' s.data).map (fun g => (⟨g⟩ : String))
        Except.ok (camelToSnakeCaseString field ++ " " ++ comparisonOperator ++ " (" ++
          joinSep ", " (arrayParam.mapIdx (fun i _ => "$" ++ natStr (count + paramsOffset + i + 1))) ++ ")",
          [Param.list arrayParam])
      | _ => Except.error Err.typeError
    else
      Except.ok (camelToSnakeCaseString field ++ " " ++ comparisonOperator ++ " $" ++
        natStr (count + 1 + paramsOffset), [Param.val v])

/-- The `forEach` loop of `getWhereParams`: threads the running parameter count
(`params.length`) through `whereStep` and collects lines and parameters. -/
def whereGo (paramsOffset : Nat) : List (String × Value) → Nat → Except Err (List String × List Param)
  | [], _ => Except.ok ([], [])
  | (k, v) :: rest, count =>
    match whereStep paramsOffset count k v with
    | Except.error e => Except.error e
    | Except.ok (line, newParams) =>
      match whereGo paramsOffset rest (count + newParams.length) with
      | Except.error e => Except.error e
      | Except.ok (lines, ps) => Except.ok (line :: lines, newParams ++ ps)

/-- The record returned by `getWhereParams`. -/
structure GetParamsForWhereOutput where
  whereSegment : String
  whereParams : List Param
deriving DecidableEq, Repr

/-- Embeds `getWhereParams`: run the loop from parameter count 0 and join the
emitted lines with a newline-AND-newline separator. The TypeScript default for
`paramsOffset` is 0; here the offset is always passed explicitly. -/
def getWhereParams (whereParams : List (String × Value)) (paramsOffset : Nat) :
    Except Err GetParamsForWhereOutput :=
  match whereGo paramsOffset whereParams 0 with
  | Except.error e => Except.error e
  | Except.ok (lines, params) => Except.ok ⟨joinSep "\nAND\n" lines, params⟩

/-- The `forEach` loop of `getParamsForInsert`, carrying the entry index `idx`:
per entry it records the snake_case column name, the placeholder for `idx + 1`,
and the value. -/
def insertGo : Nat → List (String × Value) → List String × List String × List Value
  | _, [] => ([], [], [])
  | idx, (column, value) :: rest =>
    let r := insertGo (idx + 1) rest
    (camelToSnakeCaseString column :: r.1, ("$" ++ natStr (idx + 1)) :: r.2.1, value :: r.2.2)

/-- The record returned by `getParamsForInsert`. -/
structure GetParamsForInsertOutput where
  columnsSegment : String
  paramsSegment : String
  values : List Value
deriving DecidableEq, Repr

/-- Embeds `getParamsForInsert`: collect the three token lists over the entries
in insertion order, then comma-join the two text segments. -/
def getParamsForInsert (insertParams : List (String × Value)) : GetParamsForInsertOutput :=
  let r := insertGo 0 insertParams
  ⟨joinSep ", " r.1, joinSep ", " r.2.1, r.2.2⟩

/-- Lexicographic comparison of character lists by code unit, the ordering
JavaScript uses for its default `Array.prototype.sort` comparator after
converting elements to strings. -/
def charListLe : List Char → List Char → Bool
  | [], _ => true
  | _ :: _, [] => false
  | a :: as, b :: bs => if a = b then charListLe as bs else decide (a < b)

/-- Insert into a sorted list keeping earlier elements before equal later ones,
so that `sortLe` is a stable sort, as ECMAScript requires of `sort`. -/
def insertLe {α : Type} (le : α → α → Bool) (x : α) : List α → List α
  | [] => [x]
  | y :: ys => if le x y then x :: y :: ys else y :: insertLe le x ys

/-- Stable insertion sort used to model `Array.prototype.sort`. -/
def sortLe {α : Type} (le : α → α → Bool) : List α → List α
  | [] => []
  | x :: xs => insertLe le x (sortLe le xs)

/-- Embeds `parseInt` restricted to the inputs `arrayObjectToArray` feeds it:
the numeric value of the leading run of decimal digits. -/
def parseIntNat (s : String) : Nat :=
  (s.data.takeWhile isDigitChar).foldl (fun acc c => acc * 10 + (c.toNat - 48)) 0

/-- Models `Object.keys` for an object whose keys are all canonical decimal
array indices: ECMAScript enumerates such own properties in ascending numeric
order, regardless of insertion order. -/
def jsObjectKeys (keys : List String) : List String :=
  sortLe (fun a b => Nat.ble (parseIntNat a) (parseIntNat b)) keys

/-- Property read `obj[key]` on an association-list object, `none` standing for
`undefined`. -/
def jsGet {α : Type} (obj : List (String × α)) (k : String) : Option α :=
  (obj.find? (fun e => e.1 == k)).map (fun e => e.2)

/-- Embeds `arrayObjectToArray`: take `Object.keys`, map `parseInt` over them,
sort with the DEFAULT comparator — which compares the numbers as strings —
convert back with `toString`, and read the values off in that order. -/
def arrayObjectToArray {α : Type} (arrayObject : List (String × α)) : List (Option α) :=
  let stringKeys := jsObjectKeys (arrayObject.map (fun e => e.1))
  let sortedKeys := (sortLe (fun a b => charListLe (natStr a).data (natStr b).data)
    (stringKeys.map parseIntNat)).map natStr
  sortedKeys.map (fun k => jsGet arrayObject k)

/-- JavaScript runtime values as seen by the key case-conversion helpers:
primitives, `Date` objects (opaque), arrays, and plain objects given as entry
lists in insertion order. -/
inductive JsVal where
  | vNull
  | vBool (b : Bool)
  | vNum (n : Int)
  | vStr (s : String)
  | vDate (t : Int)
  | vArr (elems : List JsVal)
  | vObj (entries : List (String × JsVal))

/-- The recursion guard `typeof v === "object" && v !== null && !(v instanceof Date)`
of the key case-conversion helpers: true exactly for arrays and plain objects
(in JavaScript `typeof [] === "object"` and `typeof null === "object"`, hence
the explicit null check in the source). -/
def isRecursable : JsVal → Bool
  | JsVal.vArr _ => true
  | JsVal.vObj _ => true
  | _ => false

mutual

/-- Embeds `camelToSnakeCaseKeys`. The source builds `converted = {}` and walks
`Object.entries(obj)`; for an array argument `Object.entries` yields the
index/element pairs with string indices, so the result is always a plain
object. A primitive argument (unreachable through the guard) has no entries. -/
def camelToSnakeCaseKeys : JsVal → JsVal
  | JsVal.vObj entries => JsVal.vObj (camelKeysEntries entries)
  | JsVal.vArr elems => JsVal.vObj (camelKeysArr 0 elems)
  | _ => JsVal.vObj []

/-- The `Object.entries(obj).forEach` body of `camelToSnakeCaseKeys` over the
entries of a plain object: convert the key, and recurse into the value exactly
when the runtime guard `isRecursable` holds. -/
def camelKeysEntries : List (String × JsVal) → List (String × JsVal)
  | [] => []
  | (k, v) :: rest =>
    (camelToSnakeCaseString k, if isRecursable v then camelToSnakeCaseKeys v else v) ::
      camelKeysEntries rest

/-- The same loop when the argument was an array: `Object.entries` enumerates
the elements under their decimal index strings. -/
def camelKeysArr : Nat → List JsVal → List (String × JsVal)
  | _, [] => []
  | i, v :: rest =>
    (camelToSnakeCaseString (natStr i), if isRecursable v then camelToSnakeCaseKeys v else v) ::
      camelKeysArr (i + 1) rest

end

mutual

/-- Embeds `snakeToCamelCaseKeys`; identical to `camelToSnakeCaseKeys` except
for the key-conversion direction. -/
def snakeToCamelCaseKeys : JsVal → JsVal
  | JsVal.vObj entries => JsVal.vObj (snakeKeysEntries entries)
  | JsVal.vArr elems => JsVal.vObj (snakeKeysArr 0 elems)
  | _ => JsVal.vObj []

/-- Entry loop of `snakeToCamelCaseKeys` over a plain object. -/
def snakeKeysEntries : List (String × JsVal) → List (String × JsVal)
  | [] => []
  | (k, v) :: rest =>
    (snakeToCamelCaseString k, if isRecursable v then snakeToCamelCaseKeys v else v) ::
      snakeKeysEntries rest

/-- Entry loop of `snakeToCamelCaseKeys` over an array argument. -/
def snakeKeysArr : Nat → List JsVal → List (String × JsVal)
  | _, [] => []
  | i, v :: rest =>
    (snakeToCamelCaseString (natStr i), if isRecursable v then snakeToCamelCaseKeys v else v) ::
      snakeKeysArr (i + 1) rest

end

/-- Test whether a converted value is (still) an array, used to state that the
case-conversion helpers do not preserve arrays. -/
def isArrB : JsVal → Bool
  | JsVal.vArr _ => true
  | _ => false

deriving instance DecidableEq for Except

/-- The domain named by the round-trip claim: only lowercase ASCII letters,
digits, and single underscores not adjacent to digits (an underscore may not be
followed by an underscore or digit, and may not be preceded by a digit). -/
def okList : List Char → Bool
  | [] => true
  | c :: rest =>
    (if c = '_' then
      match rest with
      | [] => true
      | d :: _ => isLowerAZ d
     else
      (isLowerAZ c || isDigitChar c) &&
      (match rest with
       | e :: _ => if e = '_' then isLowerAZ c else true
       | [] => true)) && okList rest

/-- String wrapper for `okList`. -/
def okString (s : String) : Bool := okList s.data

/-- Key classifier: the key parses successfully and resolves to a scalar
comparison operator (none of IS NULL / IS NOT NULL / IN / NOT IN). -/
def isScalarOpKey (k : String) : Bool :=
  match parseKey k with
  | Except.ok (_, op) =>
    !(op == "IS NULL" || op == "IS NOT NULL" || op == "IN" || op == "NOT IN")
  | Except.error _ => false

/-- The lines the claim says `getWhereParams` emits for scalar entries: per
entry, in order, `<snake_case field> <operator> $k` where `k` is the running
parameter count (after the push) plus the offset. -/
def scalarLines (p : Nat) : Nat → List (String × Value) → List String
  | _, [] => []
  | c, (k, _) :: rest =>
    (match parseKey k with
     | Except.ok (field, op) =>
        camelToSnakeCaseString field ++ " " ++ op ++ " $" ++ natStr (c + 1 + p)
     | Except.error _ => "") :: scalarLines p (c + 1) rest

/-- Key classifier: the key parses successfully and resolves to IS NULL or
IS NOT NULL. -/
def isNullOpKey (k : String) : Bool :=
  match parseKey k with
  | Except.ok (_, op) => op == "IS NULL" || op == "IS NOT NULL"
  | Except.error _ => false

/-- Key classifier used by the failure analysis: the key contains a colon and
the property read for the token between the first and second colons yields
`undefined` — the token is neither an own entry of the operator table nor a
property name inherited from `Object.prototype` — exactly the situation in
which the source throws. -/
def keyRaisesInvalid (k : String) : Bool :=
  match splitOnChar ':' k.data with
  | _ :: t :: _ => (lookupOp ⟨t⟩).isNone
  | _ => false

/-- Key classifier: the key parses successfully and resolves to IN or NOT IN. -/
def isInOpKey (k : String) : Bool :=
  match parseKey k with
  | Except.ok (_, op) => op == "IN" || op == "NOT IN"
  | Except.error _ => false

/-- State of the placeholder scanner: scanning plain text, having just read a
dollar sign, or inside the digit run of a placeholder with the accumulated
number. -/
inductive ScanState where
  | plain
  | dollar
  | num (acc : Nat)
deriving DecidableEq

/-- Scanner for positional placeholders: finds every maximal occurrence of a
dollar sign followed by a non-empty digit run and returns the numbers in
textual order. Used to state the placeholder-count invariant. -/
def scanStep (st : ScanState) : List Char → List Nat
  | [] =>
    match st with
    | ScanState.num acc => [acc]
    | _ => []
  | c :: rest =>
    match st with
    | ScanState.num acc =>
      if isDigitChar c then scanStep (ScanState.num (acc * 10 + (c.toNat - 48))) rest
      else if c = '$' then acc :: scanStep ScanState.dollar rest
      else acc :: scanStep ScanState.plain rest
    | ScanState.dollar =>
      if isDigitChar c then scanStep (ScanState.num (c.toNat - 48)) rest
      else if c = '$' then scanStep ScanState.dollar rest
      else scanStep ScanState.plain rest
    | ScanState.plain =>
      if c = '$' then scanStep ScanState.dollar rest else scanStep ScanState.plain rest

/-- The positional placeholder numbers occurring in a SQL text fragment. -/
def scanPlaceholders (s : String) : List Nat := scanStep ScanState.plain s.data

/-- Tail condition after a digit run: the next character, if any, neither
extends the run nor starts a new placeholder. -/
def headOk : List Char → Prop
  | [] => True
  | c :: _ => isDigitChar c = false ∧ c ≠ '$'


section CharFacts

/-- `Char.ofNat` is left-inverted by `Char.toNat` on the Basic Multilingual
Plane prefix that all ASCII reasoning here lives in. -/
theorem char_toNat_ofNat (n : Nat) (h : n < 55296) : (Char.ofNat n).toNat = n := by
  have hv : n.isValidChar := Or.inl h
  rw [Char.ofNat, dif_pos hv]
  rfl

/-- Characters with equal code points are equal. -/
theorem char_eq_of_toNat_eq {c d : Char} (h : c.toNat = d.toNat) : c = d := by
  have h2 := congrArg Char.ofNat h
  rwa [Char.ofNat_toNat, Char.ofNat_toNat] at h2

theorem toLower_toNat_of_upper {c : Char} (h : isUpperAZ c = true) :
    (Char.toLower c).toNat = c.toNat + 32 := by
  have hb : 65 ≤ c.toNat ∧ c.toNat ≤ 90 := by
    simpa [isUpperAZ, Bool.and_eq_true, decide_eq_true_iff] using h
  rw [Char.toLower, if_pos hb]
  exact char_toNat_ofNat _ (by omega)

theorem toUpper_toNat_of_lower {c : Char} (h : isLowerAZ c = true) :
    (Char.toUpper c).toNat = c.toNat - 32 := by
  have hb : 97 ≤ c.toNat ∧ c.toNat ≤ 122 := by
    simpa [isLowerAZ, Bool.and_eq_true, decide_eq_true_iff] using h
  rw [Char.toUpper, if_pos hb]
  exact char_toNat_ofNat _ (by omega)

theorem isUpperAZ_toUpper {c : Char} (h : isLowerAZ c = true) :
    isUpperAZ (Char.toUpper c) = true := by
  have hb : 97 ≤ c.toNat ∧ c.toNat ≤ 122 := by
    simpa [isLowerAZ, Bool.and_eq_true, decide_eq_true_iff] using h
  have ht := toUpper_toNat_of_lower h
  simp only [isUpperAZ, Bool.and_eq_true, decide_eq_true_iff, ht]
  omega

theorem toLower_toUpper_of_lower {c : Char} (h : isLowerAZ c = true) :
    Char.toLower (Char.toUpper c) = c := by
  have hb : 97 ≤ c.toNat ∧ c.toNat ≤ 122 := by
    simpa [isLowerAZ, Bool.and_eq_true, decide_eq_true_iff] using h
  apply char_eq_of_toNat_eq
  rw [toLower_toNat_of_upper (isUpperAZ_toUpper h), toUpper_toNat_of_lower h]
  omega

/-- A lowercase letter or digit is not uppercase and not an underscore. -/
theorem lower_or_digit_facts {c : Char} (h : (isLowerAZ c || isDigitChar c) = true) :
    isUpperAZ c = false ∧ c ≠ '_' := by
  have hb : (97 ≤ c.toNat ∧ c.toNat ≤ 122) ∨ (48 ≤ c.toNat ∧ c.toNat ≤ 57) := by
    rcases Bool.or_eq_true _ _ |>.mp h with h1 | h1
    · exact Or.inl (by simpa [isLowerAZ, Bool.and_eq_true, decide_eq_true_iff] using h1)
    · exact Or.inr (by simpa [isDigitChar, Bool.and_eq_true, decide_eq_true_iff] using h1)
  constructor
  · simp only [isUpperAZ, Bool.and_eq_true, decide_eq_true_iff, Bool.and_eq_false_iff]
    simp only [decide_eq_false_iff_not]
    omega
  · intro he
    have : c.toNat = 95 := by rw [he]; rfl
    omega

end CharFacts

/-- C1 (code evaluated at the failing input): on the mapping with keys 10 and 2
the implementation returns the values of keys 10 and 2 in THAT order — the
default sort comparator orders the parsed numbers as strings, putting 10 before
2 — whereas numeric ascending order would give the values of 2 then 10. -/
theorem arrayObjectToArray_lexicographic_at_ten_two :
    arrayObjectToArray [("10", "x"), ("2", "y")] = [some "x", some "y"] ∧
      ([some "x", some "y"] : List (Option String)) ≠ [some "y", some "x"] := by
  exact ⟨rfl, by decide⟩

theorem range_map_shift {α : Type} (f : Nat → α) (n : Nat) :
    (List.range (n + 1)).map f = f 0 :: (List.range n).map (fun i => f (i + 1)) := by
  simp [List.range_succ_eq_map, List.map_map]

theorem insertGo_spec (l : List (String × Value)) : ∀ idx,
    insertGo idx l = (l.map (fun e => camelToSnakeCaseString e.1),
      (List.range l.length).map (fun i => "$" ++ natStr (idx + i + 1)),
      l.map (fun e => e.2)) := by
  induction l with
  | nil => intro idx; rfl
  | cons e rest ih =>
    intro idx
    obtain ⟨c, v⟩ := e
    simp only [insertGo, ih (idx + 1), List.length_cons, List.map_cons]
    rw [range_map_shift (fun i => "$" ++ natStr (idx + i + 1))]
    simp only [Prod.mk.injEq, Nat.add_zero]
    refine ⟨trivial, ?_, trivial⟩
    refine congrArg₂ _ rfl ?_
    refine List.map_congr_left (fun a _ => ?_)
    have harith : idx + 1 + a + 1 = idx + (a + 1) + 1 := by omega
    rw [harith]

/-- C8: `getParamsForInsert` returns the comma-joined snake_case column names in
insertion order, the comma-joined placeholders `$1..$n` in the same order, and
the values in the same order. -/
theorem getParamsForInsert_spec (l : List (String × Value)) :
    getParamsForInsert l = ⟨joinSep ", " (l.map (fun e => camelToSnakeCaseString e.1)),
      joinSep ", " ((List.range l.length).map (fun i => "$" ++ natStr (i + 1))),
      l.map (fun e => e.2)⟩ := by
  unfold getParamsForInsert
  rw [insertGo_spec]
  simp [Nat.zero_add]

/-- C8 witness: the spec example `getParamsForInsert({ firstName: "Jo", age: 5 })`. -/
theorem getParamsForInsert_spec_example :
    getParamsForInsert [("firstName", Value.vStr "Jo"), ("age", Value.vInt 5)] =
      ⟨"first_name, age", "$1, $2", [Value.vStr "Jo", Value.vInt 5]⟩ :=
  (getParamsForInsert_spec _).trans (by decide)


theorem okList_tail {c : Char} {rest : List Char} (h : okList (c :: rest) = true) :
    okList rest = true := by
  simp only [okList, Bool.and_eq_true] at h
  exact h.2

theorem camel_snake_roundtrip_aux (n : Nat) : ∀ l : List Char, l.length ≤ n →
    okList l = true → camelToSnake (snakeToCamel l) = l := by
  induction n with
  | zero =>
    intro l hl _
    have hnil : l = [] := List.length_eq_zero.mp (Nat.le_zero.mp hl)
    subst hnil
    rfl
  | succ n ih =>
    intro l hl hok
    match l with
    | [] => rfl
    | [c] =>
      by_cases hc : c = '_'
      · subst hc
        rfl
      · have hcd : (isLowerAZ c || isDigitChar c) = true := by
          simp only [okList, if_neg hc, Bool.and_eq_true] at hok
          exact hok.1.1
        have hup := (lower_or_digit_facts hcd).1
        simp [snakeToCamel, camelToSnake, hup]
    | c :: d :: rest =>
      have hok' : okList (d :: rest) = true := okList_tail hok
      by_cases hc : c = '_'
      · subst hc
        have hd : isLowerAZ d = true := by
          simp only [okList, if_pos rfl, Bool.and_eq_true] at hok
          exact hok.1
        have hrest : okList rest = true := okList_tail hok'
        have hlen : rest.length ≤ n := by
          simp only [List.length_cons] at hl
          omega
        have hupd := isUpperAZ_toUpper hd
        simp [snakeToCamel, camelToSnake, hd, hupd,
          toLower_toUpper_of_lower hd, ih rest hlen hrest]
      · have hcd : (isLowerAZ c || isDigitChar c) = true := by
          simp only [okList, if_neg hc, Bool.and_eq_true] at hok
          exact hok.1.1
        have hup := (lower_or_digit_facts hcd).1
        have hlen : (d :: rest).length ≤ n := by
          simp only [List.length_cons] at hl ⊢
          omega
        simp only [snakeToCamel, if_neg hc, camelToSnake, hup, Bool.false_eq_true,
          if_false, ih (d :: rest) hlen hok']

/-- C3 counterexample: `"a_b"` lies in the claimed domain, yet applying
`camelToSnakeCaseString` (a no-op here) and then `snakeToCamelCaseString`
yields `"aB"`, not `"a_b"`. -/
theorem snake_camel_roundtrip_fails_at_a_b :
    okString "a_b" = true ∧
      snakeToCamelCaseString (camelToSnakeCaseString "a_b") ≠ "a_b" := by
  exact ⟨by decide, by decide⟩

/-- C3 (amended): on strings of lowercase letters, digits, and single
underscores not adjacent to digits, the round-trip holds in the opposite
composition order: `camelToSnakeCaseString (snakeToCamelCaseString s) = s`. -/
theorem camel_snake_roundtrip (s : String) (h : okString s = true) :
    camelToSnakeCaseString (snakeToCamelCaseString s) = s := by
  have hl := camel_snake_roundtrip_aux s.data.length s.data (Nat.le_refl _) h
  show (⟨camelToSnake (snakeToCamel s.data)⟩ : String) = s
  rw [hl]

/-- C3 witness: the amended round-trip evaluated at `"user_name2"`. -/
theorem camel_snake_roundtrip_example :
    camelToSnakeCaseString (snakeToCamelCaseString "user_name2") = "user_name2" :=
  camel_snake_roundtrip "user_name2" (by decide)

section NatToCharsFacts

theorem natToCharsAux_digits (fuel : Nat) : ∀ n, n < fuel →
    ∀ c ∈ natToCharsAux fuel n, isDigitChar c = true := by
  induction fuel with
  | zero => intro n hn; omega
  | succ fuel ih =>
    intro n hn c hc
    by_cases h0 : n = 0
    · subst h0
      simp [natToCharsAux] at hc
    · have hdiv : n / 10 < n := Nat.div_lt_self (by omega) (by omega)
      simp only [natToCharsAux, if_neg h0, List.mem_append, List.mem_singleton] at hc
      rcases hc with hc | hc
      · exact ih (n / 10) (by omega) c hc
      · subst hc
        have hmod : n % 10 < 10 := Nat.mod_lt n (by omega)
        have ht : (Char.ofNat (48 + n % 10)).toNat = 48 + n % 10 :=
          char_toNat_ofNat _ (by omega)
        simp only [isDigitChar, ht, Bool.and_eq_true, decide_eq_true_iff]
        omega

theorem natToCharsAux_ne_nil (fuel n : Nat) (hn : n < fuel) (h0 : n ≠ 0) :
    natToCharsAux fuel n ≠ [] := by
  match fuel with
  | fuel + 1 => simp [natToCharsAux, if_neg h0]

theorem natToCharsAux_foldl (fuel : Nat) : ∀ n a, n < fuel →
    List.foldl (fun acc c => acc * 10 + (c.toNat - 48)) a (natToCharsAux fuel n) =
      a * 10 ^ (natToCharsAux fuel n).length + n := by
  induction fuel with
  | zero => intro n a hn; omega
  | succ fuel ih =>
    intro n a hn
    by_cases h0 : n = 0
    · subst h0
      simp [natToCharsAux]
    · have hdiv : n / 10 < n := Nat.div_lt_self (by omega) (by omega)
      simp only [natToCharsAux, if_neg h0, List.foldl_append, List.foldl_cons, List.foldl_nil,
        List.length_append, List.length_cons, List.length_nil]
      rw [ih (n / 10) a (by omega)]
      have ht : (Char.ofNat (48 + n % 10)).toNat = 48 + n % 10 :=
        char_toNat_ofNat _ (by have := Nat.mod_lt n (show 0 < 10 by omega); omega)
      rw [ht]
      have hsub : 48 + n % 10 - 48 = n % 10 := by omega
      rw [hsub]
      have hdm : 10 * (n / 10) + n % 10 = n := Nat.div_add_mod n 10
      calc (a * 10 ^ (natToCharsAux fuel (n / 10)).length + n / 10) * 10 + n % 10
          = a * (10 ^ (natToCharsAux fuel (n / 10)).length * 10) + (10 * (n / 10) + n % 10) := by
            ring
        _ = a * 10 ^ ((natToCharsAux fuel (n / 10)).length + 0 + 1) + n := by
            rw [hdm, Nat.add_zero, pow_succ]

theorem natToChars_digits (n : Nat) : ∀ c ∈ natToChars n, isDigitChar c = true := by
  intro c hc
  by_cases h0 : n = 0
  · subst h0
    simp only [natToChars, if_true, eq_self_iff_true, List.mem_singleton] at hc
    subst hc
    decide
  · exact natToCharsAux_digits (n + 1) n (by omega) c (by simpa [natToChars, if_neg h0] using hc)

theorem natToChars_ne_nil (n : Nat) : natToChars n ≠ [] := by
  by_cases h0 : n = 0
  · subst h0
    simp [natToChars]
  · simpa [natToChars, if_neg h0] using natToCharsAux_ne_nil (n + 1) n (by omega) h0

theorem natToChars_foldl (n : Nat) :
    List.foldl (fun acc c => acc * 10 + (c.toNat - 48)) 0 (natToChars n) = n := by
  by_cases h0 : n = 0
  · subst h0
    decide
  · have h := natToCharsAux_foldl (n + 1) n 0 (by omega)
    simpa [natToChars, if_neg h0] using h

/-- `camelToSnakeCaseString` keeps a string with no uppercase letters unchanged. -/
theorem camelToSnake_no_upper : ∀ l : List Char, (∀ c ∈ l, isUpperAZ c = false) →
    camelToSnake l = l := by
  intro l
  induction l with
  | nil => intro _; rfl
  | cons c rest ih =>
    intro h
    have hc : isUpperAZ c = false := h c (by simp)
    simp only [camelToSnake, hc, Bool.false_eq_true, if_false]
    rw [ih (fun d hd => h d (by simp [hd]))]

theorem digit_not_upper {c : Char} (h : isDigitChar c = true) : isUpperAZ c = false := by
  simp only [isDigitChar, Bool.and_eq_true, decide_eq_true_iff] at h
  simp only [isUpperAZ, Bool.and_eq_false_iff, decide_eq_false_iff_not]
  omega

/-- Decimal index strings pass through snake_case conversion unchanged. -/
theorem camelToSnakeCaseString_natStr (n : Nat) :
    camelToSnakeCaseString (natStr n) = natStr n := by
  show (⟨camelToSnake (natToChars n)⟩ : String) = ⟨natToChars n⟩
  rw [camelToSnake_no_upper _ (fun c hc => digit_not_upper (natToChars_digits n c hc))]

end NatToCharsFacts

section KeyConversionFacts

theorem camelKeysEntries_append (l1 l2 : List (String × JsVal)) :
    camelKeysEntries (l1 ++ l2) = camelKeysEntries l1 ++ camelKeysEntries l2 := by
  induction l1 with
  | nil => rfl
  | cons e rest ih =>
    obtain ⟨k, v⟩ := e
    simp [camelKeysEntries, ih]

theorem snakeKeysEntries_append (l1 l2 : List (String × JsVal)) :
    snakeKeysEntries (l1 ++ l2) = snakeKeysEntries l1 ++ snakeKeysEntries l2 := by
  induction l1 with
  | nil => rfl
  | cons e rest ih =>
    obtain ⟨k, v⟩ := e
    simp [snakeKeysEntries, ih]

/-- C9: a null-valued entry is copied as a leaf under the converted key by both
key case-conversion helpers — null is excluded by the recursion guard, so the
functions are total on objects containing nulls and never recurse into them. -/
theorem null_values_are_leaves (l1 l2 : List (String × JsVal)) (k : String) :
    camelToSnakeCaseKeys (JsVal.vObj (l1 ++ (k, JsVal.vNull) :: l2)) =
      JsVal.vObj (camelKeysEntries l1 ++
        (camelToSnakeCaseString k, JsVal.vNull) :: camelKeysEntries l2) ∧
    snakeToCamelCaseKeys (JsVal.vObj (l1 ++ (k, JsVal.vNull) :: l2)) =
      JsVal.vObj (snakeKeysEntries l1 ++
        (snakeToCamelCaseString k, JsVal.vNull) :: snakeKeysEntries l2) := by
  constructor
  · show JsVal.vObj (camelKeysEntries (l1 ++ (k, JsVal.vNull) :: l2)) = _
    rw [camelKeysEntries_append]
    rfl
  · show JsVal.vObj (snakeKeysEntries (l1 ++ (k, JsVal.vNull) :: l2)) = _
    rw [snakeKeysEntries_append]
    rfl

/-- C9 witness: a two-entry object with a null under `deletedAt`. -/
theorem null_values_are_leaves_example :
    camelToSnakeCaseKeys (JsVal.vObj [("aB", JsVal.vNum 1), ("deletedAt", JsVal.vNull)]) =
      JsVal.vObj [("a_b", JsVal.vNum 1), ("deleted_at", JsVal.vNull)] ∧
    snakeToCamelCaseKeys (JsVal.vObj [("a_b", JsVal.vNum 1), ("deleted_at", JsVal.vNull)]) =
      JsVal.vObj [("aB", JsVal.vNum 1), ("deletedAt", JsVal.vNull)] := by
  have h := null_values_are_leaves [("aB", JsVal.vNum 1)] [] "deletedAt"
  have h2 := null_values_are_leaves [("a_b", JsVal.vNum 1)] [] "deleted_at"
  exact ⟨h.1.trans (by rfl), h2.2.trans (by rfl)⟩

theorem digit_ne_underscore {c : Char} (h : isDigitChar c = true) : c ≠ '_' := by
  simp only [isDigitChar, Bool.and_eq_true, decide_eq_true_iff] at h
  intro he
  have h95 : c.toNat = 95 := by rw [he]; rfl
  omega

theorem snakeToCamel_no_underscore : ∀ l : List Char, (∀ c ∈ l, c ≠ '_') →
    snakeToCamel l = l := by
  intro l
  induction l with
  | nil => intro _; rfl
  | cons c rest ih =>
    intro h
    have hc : c ≠ '_' := h c (by simp)
    match rest with
    | [] => rfl
    | d :: rest' =>
      simp only [snakeToCamel, if_neg hc]
      rw [ih (fun e he => h e (by simp [he]))]

/-- Decimal index strings pass through camelCase conversion unchanged. -/
theorem snakeToCamelCaseString_natStr (n : Nat) :
    snakeToCamelCaseString (natStr n) = natStr n := by
  show (⟨snakeToCamel (natToChars n)⟩ : String) = ⟨natToChars n⟩
  rw [snakeToCamel_no_underscore _ (fun c hc => digit_ne_underscore (natToChars_digits n c hc))]

theorem camelKeysArr_fst (a : List JsVal) : ∀ i,
    (camelKeysArr i a).map Prod.fst = (List.range a.length).map (fun j => natStr (i + j)) := by
  induction a with
  | nil => intro i; rfl
  | cons v rest ih =>
    intro i
    simp only [camelKeysArr, List.map_cons, List.length_cons]
    rw [range_map_shift (fun j => natStr (i + j)), camelToSnakeCaseString_natStr, Nat.add_zero,
      ih (i + 1)]
    refine congrArg₂ _ rfl (List.map_congr_left (fun j _ => ?_))
    have harith : i + 1 + j = i + (j + 1) := by omega
    rw [harith]

theorem camelKeysArr_snd (a : List JsVal) : ∀ i,
    (camelKeysArr i a).map Prod.snd =
      a.map (fun v => if isRecursable v then camelToSnakeCaseKeys v else v) := by
  induction a with
  | nil => intro i; rfl
  | cons v rest ih =>
    intro i
    simp only [camelKeysArr, List.map_cons, ih (i + 1)]

theorem snakeKeysArr_fst (a : List JsVal) : ∀ i,
    (snakeKeysArr i a).map Prod.fst = (List.range a.length).map (fun j => natStr (i + j)) := by
  induction a with
  | nil => intro i; rfl
  | cons v rest ih =>
    intro i
    simp only [snakeKeysArr, List.map_cons, List.length_cons]
    rw [range_map_shift (fun j => natStr (i + j)), snakeToCamelCaseString_natStr, Nat.add_zero,
      ih (i + 1)]
    refine congrArg₂ _ rfl (List.map_congr_left (fun j _ => ?_))
    have harith : i + 1 + j = i + (j + 1) := by omega
    rw [harith]

theorem snakeKeysArr_snd (a : List JsVal) : ∀ i,
    (snakeKeysArr i a).map Prod.snd =
      a.map (fun v => if isRecursable v then snakeToCamelCaseKeys v else v) := by
  induction a with
  | nil => intro i; rfl
  | cons v rest ih =>
    intro i
    simp only [snakeKeysArr, List.map_cons, ih (i + 1)]

/-- C4 counterexample: an array value is NOT copied unconverted — both helpers
recurse into it, turn it into a plain object keyed by decimal indices, and
convert the keys of its object elements. -/
theorem array_values_not_copied :
    camelToSnakeCaseKeys (JsVal.vObj [("a", JsVal.vArr [JsVal.vObj [("aB", JsVal.vNum 1)]])]) =
      JsVal.vObj [("a", JsVal.vObj [("0", JsVal.vObj [("a_b", JsVal.vNum 1)])])] ∧
    JsVal.vObj [("a", JsVal.vObj [("0", JsVal.vObj [("a_b", JsVal.vNum 1)])])] ≠
      JsVal.vObj [("a", JsVal.vArr [JsVal.vObj [("aB", JsVal.vNum 1)]])] ∧
    snakeToCamelCaseKeys (JsVal.vObj [("b", JsVal.vArr [JsVal.vObj [("a_b", JsVal.vNum 1)]])]) =
      JsVal.vObj [("b", JsVal.vObj [("0", JsVal.vObj [("aB", JsVal.vNum 1)])])] ∧
    JsVal.vObj [("b", JsVal.vObj [("0", JsVal.vObj [("aB", JsVal.vNum 1)])])] ≠
      JsVal.vObj [("b", JsVal.vArr [JsVal.vObj [("a_b", JsVal.vNum 1)]])] := by
  refine ⟨rfl, by simp, rfl, by simp⟩

/-- C4 (amended): an array-valued entry is recursed into like an object: under
the converted key the output holds a plain mapping (not an array) whose keys
are the element indices as decimal strings and whose values are the elements,
themselves key-converted exactly when the runtime guard recurses into them. -/
theorem array_values_converted (l1 l2 : List (String × JsVal)) (k : String) (a : List JsVal) :
    (camelToSnakeCaseKeys (JsVal.vObj (l1 ++ (k, JsVal.vArr a) :: l2)) =
      JsVal.vObj (camelKeysEntries l1 ++
        (camelToSnakeCaseString k, JsVal.vObj (camelKeysArr 0 a)) :: camelKeysEntries l2) ∧
     (camelKeysArr 0 a).map Prod.fst = (List.range a.length).map natStr ∧
     (camelKeysArr 0 a).map Prod.snd =
       a.map (fun v => if isRecursable v then camelToSnakeCaseKeys v else v)) ∧
    (snakeToCamelCaseKeys (JsVal.vObj (l1 ++ (k, JsVal.vArr a) :: l2)) =
      JsVal.vObj (snakeKeysEntries l1 ++
        (snakeToCamelCaseString k, JsVal.vObj (snakeKeysArr 0 a)) :: snakeKeysEntries l2) ∧
     (snakeKeysArr 0 a).map Prod.fst = (List.range a.length).map natStr ∧
     (snakeKeysArr 0 a).map Prod.snd =
       a.map (fun v => if isRecursable v then snakeToCamelCaseKeys v else v)) := by
  refine ⟨⟨?_, ?_, camelKeysArr_snd a 0⟩, ?_, ?_, snakeKeysArr_snd a 0⟩
  · show JsVal.vObj (camelKeysEntries (l1 ++ (k, JsVal.vArr a) :: l2)) = _
    rw [camelKeysEntries_append]
    rfl
  · rw [camelKeysArr_fst a 0]
    exact List.map_congr_left (fun j _ => by rw [Nat.zero_add])
  · show JsVal.vObj (snakeKeysEntries (l1 ++ (k, JsVal.vArr a) :: l2)) = _
    rw [snakeKeysEntries_append]
    rfl
  · rw [snakeKeysArr_fst a 0]
    exact List.map_congr_left (fun j _ => by rw [Nat.zero_add])

/-- C4 witness: the amended statement applied to a one-entry object holding a
two-element array. -/
theorem array_values_converted_example :
    camelToSnakeCaseKeys (JsVal.vObj [("myKey", JsVal.vArr [JsVal.vNum 7, JsVal.vStr "z"])]) =
      JsVal.vObj [("my_key", JsVal.vObj [("0", JsVal.vNum 7), ("1", JsVal.vStr "z")])] :=
  ((array_values_converted [] [] "myKey" [JsVal.vNum 7, JsVal.vStr "z"]).1.1).trans (by rfl)

end KeyConversionFacts


section WhereScalar


theorem whereGo_scalar (p : Nat) (l : List (String × Value)) :
    ∀ c, (∀ e ∈ l, isScalarOpKey e.1 = true) →
    whereGo p l c = Except.ok (scalarLines p c l, l.map (fun e => Param.val e.2)) := by
  induction l with
  | nil => intro c _; rfl
  | cons e rest ih =>
    intro c h
    obtain ⟨k, v⟩ := e
    have hk : isScalarOpKey k = true := h (k, v) (by simp)
    cases hpk : parseKey k with
    | error err => simp [isScalarOpKey, hpk] at hk
    | ok fo =>
      obtain ⟨field, op⟩ := fo
      rw [isScalarOpKey, hpk] at hk
      simp only [Bool.not_eq_true', Bool.or_eq_false_iff, beq_eq_false_iff_ne] at hk
      obtain ⟨⟨⟨h1, h2⟩, h3⟩, h4⟩ := hk
      have hstep : whereStep p c k v =
          Except.ok (camelToSnakeCaseString field ++ " " ++ op ++ " $" ++
            natStr (c + 1 + p), [Param.val v]) := by
        simp only [whereStep, hpk]
        rw [if_neg (by tauto), if_neg (by tauto)]
      simp only [whereGo, hstep, List.length_cons, List.length_nil]
      rw [ih (c + 1) (fun e he => h e (by simp [he]))]
      simp only [scalarLines, hpk, List.map_cons, List.singleton_append]

/-- C6: when every entry resolves to a scalar comparison operator,
`getWhereParams` emits one `<snake_case field> <operator> $k` line per entry in
insertion order with `k` equal to the running parameter count plus the offset,
joins the lines with a newline-AND-newline separator, and returns the entry
values in order; an empty mapping yields the empty segment and no parameters. -/
theorem getWhereParams_scalar (l : List (String × Value)) (p : Nat)
    (h : ∀ e ∈ l, isScalarOpKey e.1 = true) :
    getWhereParams l p =
      Except.ok ⟨joinSep "\nAND\n" (scalarLines p 0 l), l.map (fun e => Param.val e.2)⟩ := by
  unfold getWhereParams
  rw [whereGo_scalar p l 0 h]

/-- C6 witness: the spec examples — two scalar entries, an offset of 2 yielding
placeholder `$3`, and the empty mapping. -/
theorem getWhereParams_scalar_examples :
    getWhereParams [("age:gte", Value.vInt 18), ("age:lt", Value.vInt 65)] 0 =
      Except.ok ⟨"age >= $1\nAND\nage < $2",
        [Param.val (Value.vInt 18), Param.val (Value.vInt 65)]⟩ ∧
    getWhereParams [("a", Value.vInt 1)] 2 =
      Except.ok ⟨"a = $3", [Param.val (Value.vInt 1)]⟩ ∧
    getWhereParams ([] : List (String × Value)) 0 = Except.ok ⟨"", []⟩ := by
  refine ⟨(getWhereParams_scalar _ 0 (by decide)).trans (by decide),
    (getWhereParams_scalar _ 2 (by decide)).trans (by decide),
    (getWhereParams_scalar _ 0 (by decide)).trans (by decide)⟩

end WhereScalar

section WhereNullOp


theorem whereStep_nullOp_indep (p c : Nat) (k : String) (h : isNullOpKey k = true)
    (v v' : Value) : whereStep p c k v = whereStep p c k v' := by
  cases hpk : parseKey k with
  | error e => simp [isNullOpKey, hpk] at h
  | ok fo =>
    obtain ⟨field, op⟩ := fo
    have hop : op = "IS NULL" ∨ op = "IS NOT NULL" := by
      simpa [isNullOpKey, hpk] using h
    simp only [whereStep, hpk]
    rw [if_pos hop, if_pos hop]

theorem whereStep_nullOp_noParams (p c : Nat) (k : String) (h : isNullOpKey k = true)
    (v : Value) : ∃ line, whereStep p c k v = Except.ok (line, []) := by
  cases hpk : parseKey k with
  | error e => simp [isNullOpKey, hpk] at h
  | ok fo =>
    obtain ⟨field, op⟩ := fo
    have hop : op = "IS NULL" ∨ op = "IS NOT NULL" := by
      simpa [isNullOpKey, hpk] using h
    refine ⟨camelToSnakeCaseString field ++ " " ++ op, ?_⟩
    simp only [whereStep, hpk]
    rw [if_pos hop]

theorem whereGo_congr_nullOp (p : Nat) {l1 l2 : List (String × Value)}
    (hf : List.Forall₂ (fun a b => a.1 = b.1 ∧ (a.2 = b.2 ∨ isNullOpKey a.1 = true)) l1 l2) :
    ∀ c, whereGo p l1 c = whereGo p l2 c := by
  induction hf with
  | nil => intro c; rfl
  | @cons a b t1 t2 hab hrest ih =>
    intro c
    obtain ⟨k1, v1⟩ := a
    obtain ⟨k2, v2⟩ := b
    obtain ⟨hkey, hval⟩ := hab
    simp only at hkey
    subst hkey
    have hstep : whereStep p c k1 v1 = whereStep p c k1 v2 := by
      rcases hval with hv | hnull
      · simp only at hv
        rw [hv]
      · exact whereStep_nullOp_indep p c k1 hnull v1 v2
    simp only [whereGo, hstep]
    cases hs : whereStep p c k1 v2 with
    | error e => rfl
    | ok lp =>
      obtain ⟨line, nps⟩ := lp
      simp only [ih (c + nps.length)]

/-- C10: the value bound to an IS NULL / IS NOT NULL key has no influence on
the output of `getWhereParams` — two mappings that agree except at the values
of such keys produce identical results — and such an entry pushes nothing onto
the parameter sequence. -/
theorem getWhereParams_nullOp_value_independent (p : Nat) (l1 l2 : List (String × Value))
    (hf : List.Forall₂ (fun a b => a.1 = b.1 ∧ (a.2 = b.2 ∨ isNullOpKey a.1 = true)) l1 l2) :
    getWhereParams l1 p = getWhereParams l2 p ∧
    (∀ c k v, isNullOpKey k = true → ∃ line, whereStep p c k v = Except.ok (line, [])) := by
  constructor
  · unfold getWhereParams
    rw [whereGo_congr_nullOp p hf 0]
  · exact fun c k v h => whereStep_nullOp_noParams p c k h v

/-- C10 witness: swapping the value under `deletedAt:isNull` from null to a
string leaves the result unchanged, and that result is the spec example with an
empty parameter sequence. -/
theorem getWhereParams_nullOp_value_independent_example :
    getWhereParams [("deletedAt:isNull", Value.vNull)] 0 =
      getWhereParams [("deletedAt:isNull", Value.vStr "x")] 0 ∧
    getWhereParams [("deletedAt:isNull", Value.vNull)] 0 =
      Except.ok ⟨"deleted_at IS NULL", []⟩ := by
  refine ⟨(getWhereParams_nullOp_value_independent 0 _ _ ?_).1, by decide⟩
  exact List.Forall₂.cons ⟨rfl, Or.inr (by decide)⟩ List.Forall₂.nil

end WhereNullOp

section WhereErrors


theorem parseKey_cases (k : String) :
    (keyRaisesInvalid k = true ∧ parseKey k = Except.error Err.invalidOperator) ∨
    (keyRaisesInvalid k = false ∧ ∃ fo, parseKey k = Except.ok fo) := by
  unfold keyRaisesInvalid parseKey
  match splitOnChar ':' k.data with
  | [] => exact Or.inr ⟨rfl, ⟨(k, "="), rfl⟩⟩
  | [f] => exact Or.inr ⟨rfl, ⟨(k, "="), rfl⟩⟩
  | f :: t :: rest =>
    cases hlo : lookupOp ⟨t⟩ with
    | none => exact Or.inl ⟨by simp [hlo], by simp [hlo]⟩
    | some op => exact Or.inr ⟨by simp [hlo], ⟨(⟨f⟩, op), by simp [hlo]⟩⟩

theorem whereGo_error_char (p : Nat) (l : List (String × Value)) :
    ∀ c, (∀ e ∈ l, isInOpKey e.1 = true → ∃ s, e.2 = Value.vStr s) →
    ((whereGo p l c = Except.error Err.invalidOperator ↔
        ∃ e ∈ l, keyRaisesInvalid e.1 = true) ∧
      whereGo p l c ≠ Except.error Err.typeError) := by
  induction l with
  | nil =>
    intro c _
    refine ⟨⟨fun h => by simp [whereGo] at h, fun h => ?_⟩, by simp [whereGo]⟩
    obtain ⟨e, he, _⟩ := h
    simp at he
  | cons e rest ih =>
    intro c hin
    obtain ⟨k, v⟩ := e
    rcases parseKey_cases k with ⟨hraise, hpk⟩ | ⟨hnoraise, ⟨⟨field, op⟩, hpk⟩⟩
    · have hstep : whereStep p c k v = Except.error Err.invalidOperator := by
        simp only [whereStep, hpk]
      simp only [whereGo, hstep]
      refine ⟨⟨fun _ => ⟨(k, v), by simp, hraise⟩, fun _ => by trivial⟩, by simp⟩
    · have hstep : ∃ line nps, whereStep p c k v = Except.ok (line, nps) := by
        by_cases hnull : op = "IS NULL" ∨ op = "IS NOT NULL"
        · simp only [whereStep, hpk]
          rw [if_pos hnull]
          exact ⟨_, _, rfl⟩
        · by_cases hinop : op = "IN" ∨ op = "NOT IN"
          · have hkin : isInOpKey k = true := by
              simp only [isInOpKey, hpk]
              rcases hinop with h | h <;> simp [h]
            obtain ⟨s, hv⟩ := hin (k, v) (by simp) hkin
            simp only at hv
            subst hv
            simp only [whereStep, hpk]
            rw [if_neg hnull, if_pos hinop]
            exact ⟨_, _, rfl⟩
          · simp only [whereStep, hpk]
            rw [if_neg hnull, if_neg hinop]
            exact ⟨_, _, rfl⟩
      obtain ⟨line, nps, hstep⟩ := hstep
      have hrec := ih (c + nps.length) (fun e he hop => hin e (by simp [he]) hop)
      simp only [whereGo, hstep]
      cases hgo : whereGo p rest (c + nps.length) with
      | error e2 =>
        rw [hgo] at hrec
        have he2 : e2 = Err.invalidOperator := by
          cases e2
          · rfl
          · exact absurd rfl hrec.2
        subst he2
        refine ⟨⟨fun _ => ?_, fun _ => rfl⟩, by simp⟩
        obtain ⟨e, he, hr⟩ := hrec.1.mp rfl
        exact ⟨e, by simp [he], hr⟩
      | ok lp =>
        rw [hgo] at hrec
        obtain ⟨lines, ps⟩ := lp
        refine ⟨⟨fun h => by simp at h, fun h => ?_⟩, by simp⟩
        rcases h with ⟨e, he, hr⟩
        rcases List.mem_cons.mp he with he1 | he2
        · subst he1
          simp only at hr
          simp [hnoraise] at hr
        · have hcontra := hrec.1.mpr ⟨e, he2, hr⟩
          simp at hcontra

/-- C7 (amended): provided every entry resolving to IN or NOT IN carries a
string value, `getWhereParams` raises InvalidOperator exactly when some key
contains a colon whose token between the first and second colons resolves to
a falsy property read — the token is neither an own entry of the operator
table nor one of the property names every object literal inherits from
`Object.prototype` (an inherited member such as `toString` is truthy, so no
throw occurs and the member is interpolated into the emitted line). A
colonless key never raises, and no other failure occurs. (Without the proviso
an IN / NOT IN entry with a non-string value raises a TypeError instead.) -/
theorem getWhereParams_error_characterization (l : List (String × Value)) (p : Nat)
    (hin : ∀ e ∈ l, isInOpKey e.1 = true → ∃ s, e.2 = Value.vStr s) :
    (getWhereParams l p = Except.error Err.invalidOperator ↔
      ∃ e ∈ l, keyRaisesInvalid e.1 = true) ∧
    getWhereParams l p ≠ Except.error Err.typeError := by
  have h := whereGo_error_char p l 0 hin
  unfold getWhereParams
  split
  next e2 heq =>
    rw [heq] at h
    simp only [ne_eq, Except.error.injEq] at h ⊢
    exact h
  next lines ps heq =>
    rw [heq] at h
    refine ⟨⟨fun hc => by simp at hc, fun hc => ?_⟩, by simp⟩
    have hcontra := h.1.mpr hc
    simp at hcontra

/-- C7 counterexample, refuting the claim as stated three ways: the key
`"a:gte:x"` contains a colon and the token after its FIRST colon, `"gte:x"`,
is not in the operator table, yet no error is raised (the source consults only
`tokens[1]`, here `"gte"`); the key `"a:toString"` has a token that is not an
entry of the table either, yet the prototype-chain read returns the truthy
inherited `toString` method, so instead of throwing the source interpolates it
into the line; and InvalidOperator is not the only failure mode: an IN entry
with a non-string value raises a TypeError. -/
theorem getWhereParams_error_claim_fails :
    lookupOp "gte:x" = none ∧
    getWhereParams [("a:gte:x", Value.vInt 1)] 0 =
      Except.ok ⟨"a >= $1", [Param.val (Value.vInt 1)]⟩ ∧
    (COMPARISON_OPERATORS_MAP.find? (fun e => e.1 == "toString")).isNone = true ∧
    getWhereParams [("a:toString", Value.vInt 1)] 0 =
      Except.ok ⟨"a function toString() \x7b [native code] \x7d $1",
        [Param.val (Value.vInt 1)]⟩ ∧
    getWhereParams [("a:in", Value.vInt 5)] 0 = Except.error Err.typeError := by
  exact ⟨rfl, by decide, rfl, by decide, rfl⟩

/-- C7 witness: the spec example `{"x:bogus": 1}` raises InvalidOperator. -/
theorem getWhereParams_error_characterization_example :
    getWhereParams [("x:bogus", Value.vInt 1)] 0 = Except.error Err.invalidOperator := by
  have hin : ∀ e ∈ [("x:bogus", Value.vInt 1)], isInOpKey e.1 = true →
      ∃ s, e.2 = Value.vStr s := by
    intro e he hop
    simp only [List.mem_singleton] at he
    subst he
    exact absurd hop (by decide)
  exact ((getWhereParams_error_characterization _ 0 hin).1).mpr
    ⟨("x:bogus", Value.vInt 1), by simp, by decide⟩

end WhereErrors

section WhereInOp

theorem splitOnChar_no_sep (sep : Char) : ∀ l : List Char, (∀ c ∈ l, c ≠ sep) →
    splitOnChar sep l = [l] := by
  intro l
  induction l with
  | nil => intro _; rfl
  | cons c rest ih =>
    intro h
    have hc : c ≠ sep := h c (by simp)
    simp only [splitOnChar, if_neg hc]
    rw [ih (fun d hd => h d (by simp [hd]))]

theorem splitOnChar_append (sep : Char) : ∀ (l1 l2 : List Char), (∀ c ∈ l1, c ≠ sep) →
    splitOnChar sep (l1 ++ sep :: l2) = l1 :: splitOnChar sep l2 := by
  intro l1
  induction l1 with
  | nil => intro l2 _; simp [splitOnChar]
  | cons c rest ih =>
    intro l2 h
    have hc : c ≠ sep := h c (by simp)
    simp only [List.cons_append, splitOnChar, if_neg hc]
    rw [show rest.append (sep :: l2) = rest ++ sep :: l2 from rfl]
    rw [ih l2 (fun d hd => h d (by simp [hd]))]

theorem mapIdx_eq_range_map {α β : Type} : ∀ (l : List α) (g : Nat → β),
    List.mapIdx (fun i _ => g i) l = (List.range l.length).map g := by
  intro l
  induction l with
  | nil => intro g; rfl
  | cons a rest ih =>
    intro g
    simp only [List.length_cons]
    rw [List.mapIdx_cons, range_map_shift g, ih (fun i => g (i + 1))]

theorem parseKey_append_token (f tok : String) (hf : ∀ ch ∈ f.data, ch ≠ ':')
    (htok : ∀ ch ∈ tok.data, ch ≠ ':') :
    parseKey (f ++ ":" ++ tok) = (match lookupOp tok with
      | some op => Except.ok (f, op)
      | none => Except.error Err.invalidOperator) := by
  unfold parseKey
  have hdata : (f ++ ":" ++ tok).data = f.data ++ ':' :: tok.data := by
    simp [String.data_append]
  rw [hdata, splitOnChar_append ':' f.data tok.data hf, splitOnChar_no_sep ':' tok.data htok]

/-- C5: for an entry whose key is `<field>:in` or `<field>:notIn` and whose
value is a string, `getWhereParams`'s loop body splits the value on commas,
emits `<snake_case field> <operator> ($k, $k+1, …)` with exactly one
placeholder per list element numbered contiguously from the running parameter
count plus the offset, and pushes the whole split list as a single parameter
entry. -/
theorem whereStep_in_notIn (p c : Nat) (f s tok : String)
    (hf : ∀ ch ∈ f.data, ch ≠ ':') (htok : tok = "in" ∨ tok = "notIn") :
    whereStep p c (f ++ ":" ++ tok) (Value.vStr s) =
      Except.ok (camelToSnakeCaseString f ++ " " ++ (if tok = "in" then "IN" else "NOT IN") ++
        " (" ++ joinSep ", " ((List.range (splitOnChar ',' s.data).length).map
          (fun i => "$" ++ natStr (c + p + i + 1))) ++ ")",
        [Param.list ((splitOnChar ',' s.data).map (fun g => (⟨g⟩ : String)))]) := by
  rcases htok with h | h <;> subst h
  · have hpk : parseKey (f ++ ":" ++ "in") = Except.ok (f, "IN") := by
      rw [parseKey_append_token f "in" hf (by decide)]
      rfl
    simp only [whereStep, hpk]
    rw [if_neg (by decide), if_pos (by decide)]
    simp only [mapIdx_eq_range_map, List.length_map]
    rfl
  · have hpk : parseKey (f ++ ":" ++ "notIn") = Except.ok (f, "NOT IN") := by
      rw [parseKey_append_token f "notIn" hf (by decide)]
      rfl
    simp only [whereStep, hpk]
    rw [if_neg (by decide), if_pos (by decide)]
    simp only [mapIdx_eq_range_map, List.length_map]
    rfl

/-- C5 witness: the spec example — the loop body at `{"status:in": "a,b,c"}`
emits three contiguous placeholders and the whole function returns
`whereParams == [["a","b","c"]]`. -/
theorem whereStep_in_notIn_example :
    whereStep 0 0 "status:in" (Value.vStr "a,b,c") =
      Except.ok ("status IN ($1, $2, $3)", [Param.list ["a", "b", "c"]]) ∧
    getWhereParams [("status:in", Value.vStr "a,b,c")] 0 =
      Except.ok ⟨"status IN ($1, $2, $3)", [Param.list ["a", "b", "c"]]⟩ := by
  constructor
  · have h := whereStep_in_notIn 0 0 "status" "a,b,c" "in" (by decide) (Or.inl rfl)
    exact h.trans (by decide)
  · decide

end WhereInOp

section PlaceholderScanner


theorem scan_plain_cons_ne {c : Char} (h : c ≠ '$') (l : List Char) :
    scanStep ScanState.plain (c :: l) = scanStep ScanState.plain l := by
  simp [scanStep, h]

theorem scan_plain_append (l1 l2 : List Char) (h : ∀ c ∈ l1, c ≠ '$') :
    scanStep ScanState.plain (l1 ++ l2) = scanStep ScanState.plain l2 := by
  induction l1 with
  | nil => rfl
  | cons c rest ih =>
    rw [List.cons_append, scan_plain_cons_ne (h c (by simp))]
    exact ih (fun d hd => h d (by simp [hd]))

theorem scan_plain_no_dollar (l : List Char) (h : ∀ c ∈ l, c ≠ '$') :
    scanStep ScanState.plain l = [] := by
  have h2 := scan_plain_append l [] h
  rwa [List.append_nil] at h2

theorem scan_num_digits : ∀ (ds : List Char) (a : Nat) (t : List Char),
    (∀ c ∈ ds, isDigitChar c = true) → headOk t →
    scanStep (ScanState.num a) (ds ++ t) =
      (ds.foldl (fun acc c => acc * 10 + (c.toNat - 48)) a) :: scanStep ScanState.plain t := by
  intro ds
  induction ds with
  | nil =>
    intro a t _ ht
    cases t with
    | nil => rfl
    | cons c t' =>
      obtain ⟨hd, hne⟩ := ht
      simp [scanStep, hd, hne]
  | cons d ds' ih =>
    intro a t h ht
    have hd : isDigitChar d = true := h d (by simp)
    rw [List.cons_append]
    show scanStep (ScanState.num a) (d :: (ds' ++ t)) = _
    simp only [scanStep, hd, if_true, List.foldl_cons]
    exact ih (a * 10 + (d.toNat - 48)) t (fun c hc => h c (by simp [hc])) ht

theorem scan_dollar_digits (ds : List Char) (t : List Char) (hne : ds ≠ [])
    (h : ∀ c ∈ ds, isDigitChar c = true) (ht : headOk t) :
    scanStep ScanState.dollar (ds ++ t) =
      (ds.foldl (fun acc c => acc * 10 + (c.toNat - 48)) 0) :: scanStep ScanState.plain t := by
  match ds with
  | d :: ds' =>
    have hd : isDigitChar d = true := h d (by simp)
    rw [List.cons_append]
    show scanStep ScanState.dollar (d :: (ds' ++ t)) = _
    simp only [scanStep, hd, if_true, List.foldl_cons]
    have hz : (0 : Nat) * 10 + (d.toNat - 48) = d.toNat - 48 := by omega
    rw [hz]
    exact scan_num_digits ds' (d.toNat - 48) t (fun c hc => h c (by simp [hc])) ht

theorem scan_plain_dollar (l : List Char) :
    scanStep ScanState.plain ('$' :: l) = scanStep ScanState.dollar l := by
  simp [scanStep]

/-- A dollar sign followed by the decimal digits of `k` scans as the
placeholder `k`. -/
theorem scan_placeholder (k : Nat) (t : List Char) (ht : headOk t) :
    scanStep ScanState.plain ('$' :: (natToChars k ++ t)) = k :: scanStep ScanState.plain t := by
  rw [scan_plain_dollar,
    scan_dollar_digits (natToChars k) t (natToChars_ne_nil k) (natToChars_digits k) ht,
    natToChars_foldl]

end PlaceholderScanner

section WhereInvariant

theorem splitOnChar_ne_nil (sep : Char) : ∀ l : List Char, splitOnChar sep l ≠ [] := by
  intro l
  induction l with
  | nil => simp [splitOnChar]
  | cons c rest ih =>
    by_cases hc : c = sep
    · simp [splitOnChar, hc]
    · simp only [splitOnChar, if_neg hc]
      split
      · simp
      · simp

theorem splitOnChar_mem_subset (sep : Char) : ∀ (l : List Char) (g : List Char),
    g ∈ splitOnChar sep l → ∀ c ∈ g, c ∈ l := by
  intro l
  induction l with
  | nil =>
    intro g hg c hc
    simp only [splitOnChar, List.mem_singleton] at hg
    subst hg
    simp at hc
  | cons x rest ih =>
    intro g hg c hc
    by_cases hx : x = sep
    · rw [splitOnChar, if_pos hx] at hg
      rcases List.mem_cons.mp hg with hg1 | hg2
      · subst hg1
        simp at hc
      · exact List.mem_cons_of_mem x (ih g hg2 c hc)
    · rw [splitOnChar, if_neg hx] at hg
      rcases hrec : splitOnChar sep rest with _ | ⟨g0, gs⟩
      · exact absurd hrec (splitOnChar_ne_nil sep rest)
      · rw [hrec] at hg
        rcases List.mem_cons.mp hg with hg1 | hg2
        · subst hg1
          rcases List.mem_cons.mp hc with hc1 | hc2
          · subst hc1
            simp
          · exact List.mem_cons_of_mem x (ih g0 (by rw [hrec]; simp) c hc2)
        · exact List.mem_cons_of_mem x (ih g (by rw [hrec]; simp [hg2]) c hc)

theorem camelToSnake_no_dollar : ∀ l : List Char, (∀ c ∈ l, c ≠ '$') →
    ∀ c' ∈ camelToSnake l, c' ≠ '$' := by
  intro l
  induction l with
  | nil =>
    intro _ c' hc'
    simp [camelToSnake] at hc'
  | cons c rest ih =>
    intro h c' hc'
    by_cases hup : isUpperAZ c = true
    · rw [camelToSnake, if_pos hup] at hc'
      rcases List.mem_cons.mp hc' with h1 | h2
      · subst h1
        decide
      · rcases List.mem_cons.mp h2 with h3 | h4
        · subst h3
          intro he
          have hb : 65 ≤ c.toNat ∧ c.toNat ≤ 90 := by
            simpa [isUpperAZ, Bool.and_eq_true, decide_eq_true_iff] using hup
          have ht : (Char.toLower c).toNat = c.toNat + 32 := toLower_toNat_of_upper hup
          have h36 : (Char.toLower c).toNat = 36 := by rw [he]; rfl
          omega
        · exact ih (fun d hd => h d (by simp [hd])) c' h4
    · rw [camelToSnake, if_neg hup] at hc'
      rcases List.mem_cons.mp hc' with h1 | h2
      · subst h1
        exact h c' (by simp)
      · exact ih (fun d hd => h d (by simp [hd])) c' h2

theorem ops_no_dollar : ∀ e ∈ COMPARISON_OPERATORS_MAP, ∀ c ∈ (e.2 : String).data, c ≠ '$' := by
  decide

theorem lookupOp_no_dollar {t op : String} (h : lookupOp t = some op) :
    ∀ c ∈ op.data, c ≠ '$' := by
  unfold lookupOp at h
  split at h
  next e hf =>
    simp only [Option.some.injEq] at h
    subst h
    exact ops_no_dollar e (List.mem_of_find?_eq_some hf)
  next hf =>
    split at h
    next hmem =>
      simp only [Option.some.injEq] at h
      subst h
      exact (by decide : ∀ m ∈ OBJECT_PROTOTYPE_MEMBERS,
        ∀ c ∈ (protoMemberText m).data, c ≠ '$') t hmem
    next hmem => simp at h

theorem parseKey_no_dollar {k field op : String} (hpk : parseKey k = Except.ok (field, op))
    (hk : ∀ c ∈ k.data, c ≠ '$') :
    (∀ c ∈ field.data, c ≠ '$') ∧ (∀ c ∈ op.data, c ≠ '$') := by
  unfold parseKey at hpk
  split at hpk
  next f t tail heqsp =>
    split at hpk
    next op0 heqlo =>
      simp only [Except.ok.injEq, Prod.mk.injEq] at hpk
      obtain ⟨h1, h2⟩ := hpk
      subst h1
      subst h2
      constructor
      · intro c hc
        exact hk c (splitOnChar_mem_subset ':' k.data f (by rw [heqsp]; simp) c hc)
      · exact lookupOp_no_dollar heqlo
    next heqlo => simp at hpk
  next x heqsp =>
    simp only [Except.ok.injEq, Prod.mk.injEq] at hpk
    obtain ⟨h1, h2⟩ := hpk
    subst h1
    subst h2
    exact ⟨hk, by decide⟩

theorem whereGo_length (p : Nat) : ∀ (l : List (String × Value)) (c : Nat)
    (lines : List String) (ps : List Param),
    whereGo p l c = Except.ok (lines, ps) → lines.length = l.length := by
  intro l
  induction l with
  | nil =>
    intro c lines ps h
    simp only [whereGo, Except.ok.injEq, Prod.mk.injEq] at h
    rw [← h.1]
    rfl
  | cons e rest ih =>
    intro c lines ps h
    obtain ⟨k, v⟩ := e
    rw [whereGo] at h
    split at h
    next e2 heq => simp at h
    next line nps heq =>
      split at h
      next e2 heq2 => simp at h
      next lines2 ps2 heq2 =>
        simp only [Except.ok.injEq, Prod.mk.injEq] at h
        rw [← h.1]
        simp [ih (c + nps.length) lines2 ps2 heq2]

theorem camelToSnakeCaseString_data (s : String) :
    (camelToSnakeCaseString s).data = camelToSnake s.data := rfl

theorem scan_placeholder_nil (k : Nat) :
    scanStep ScanState.plain ('$' :: natToChars k) = [k] := by
  have h := scan_placeholder k [] trivial
  rwa [List.append_nil] at h

theorem sep_no_dollar : ∀ c ∈ ("\nAND\n" : String).data, c ≠ '$' := by decide

theorem scan_null_line (A B t : List Char)
    (hA : ∀ c ∈ A, c ≠ '$') (hB : ∀ c ∈ B, c ≠ '$') :
    scanStep ScanState.plain (A ++ (' ' :: (B ++ t))) = scanStep ScanState.plain t := by
  rw [scan_plain_append _ _ hA, scan_plain_cons_ne (by decide), scan_plain_append _ _ hB]

theorem scan_scalar_line (A B : List Char) (k2 : Nat) (t : List Char)
    (hA : ∀ c ∈ A, c ≠ '$') (hB : ∀ c ∈ B, c ≠ '$') (ht : headOk t) :
    scanStep ScanState.plain (A ++ (' ' :: (B ++ (' ' :: '$' :: (natToChars k2 ++ t))))) =
      k2 :: scanStep ScanState.plain t := by
  rw [scan_plain_append _ _ hA, scan_plain_cons_ne (by decide), scan_plain_append _ _ hB,
    scan_plain_cons_ne (by decide), scan_placeholder k2 t ht]

theorem whereGo_scan (p : Nat) : ∀ (l : List (String × Value)) (c : Nat)
    (lines : List String) (ps : List Param),
    (∀ e ∈ l, isInOpKey e.1 = false) →
    (∀ e ∈ l, ∀ ch ∈ e.1.data, ch ≠ '$') →
    whereGo p l c = Except.ok (lines, ps) →
    scanStep ScanState.plain (joinSep "\nAND\n" lines).data =
      List.range' (c + p + 1) ps.length := by
  intro l
  induction l with
  | nil =>
    intro c lines ps _ _ h
    simp only [whereGo, Except.ok.injEq, Prod.mk.injEq] at h
    rw [← h.1, ← h.2]
    rfl
  | cons e rest ih =>
    intro c lines ps hnoin hnd h
    obtain ⟨k, v⟩ := e
    have hkin : isInOpKey k = false := hnoin (k, v) (by simp)
    have hknd : ∀ ch ∈ k.data, ch ≠ '$' := hnd (k, v) (by simp)
    have hnoin' : ∀ e ∈ rest, isInOpKey e.1 = false := fun e he => hnoin e (by simp [he])
    have hnd' : ∀ e ∈ rest, ∀ ch ∈ e.1.data, ch ≠ '$' := fun e he => hnd e (by simp [he])
    rw [whereGo] at h
    split at h
    next e2 heq => simp at h
    next line nps heq =>
      split at h
      next e2 heq2 => simp at h
      next lines2 ps2 heq2 =>
        simp only [Except.ok.injEq, Prod.mk.injEq] at h
        obtain ⟨hlines, hps⟩ := h
        subst hlines
        subst hps
        rw [whereStep] at heq
        split at heq
        next perr heqpk => simp at heq
        next field op heqpk =>
          obtain ⟨hfnd, hopnd⟩ := parseKey_no_dollar heqpk hknd
          have hand : ∀ ch ∈ camelToSnake field.data, ch ≠ '$' :=
            camelToSnake_no_dollar field.data hfnd
          by_cases hnull : op = "IS NULL" ∨ op = "IS NOT NULL"
          · rw [if_pos hnull] at heq
            simp only [Except.ok.injEq, Prod.mk.injEq] at heq
            obtain ⟨hline, hnps⟩ := heq
            subst hline
            subst hnps
            cases lines2 with
            | nil =>
              have hrl := whereGo_length p rest _ [] ps2 heq2
              have hrest : rest = [] := by
                cases rest with
                | nil => rfl
                | cons r rs => simp at hrl
              subst hrest
              have hps2 : ps2 = [] := by
                simp only [whereGo, Except.ok.injEq, Prod.mk.injEq] at heq2
                exact heq2.2.symm
              subst hps2
              have hall : (joinSep "\nAND\n" [camelToSnakeCaseString field ++ " " ++ op]).data =
                  camelToSnake field.data ++ (' ' :: (op.data ++ [])) := by
                show (camelToSnakeCaseString field ++ " " ++ op).data = _
                simp [String.data_append, camelToSnakeCaseString_data, List.append_assoc]
              rw [hall, scan_null_line _ _ _ hand hopnd]
              rfl
            | cons l1 ls =>
              have hall : (joinSep "\nAND\n"
                  ((camelToSnakeCaseString field ++ " " ++ op) :: l1 :: ls)).data =
                  camelToSnake field.data ++ (' ' :: (op.data ++ (['\n', 'A', 'N', 'D', '\n'] ++
                    (joinSep "\nAND\n" (l1 :: ls)).data))) := by
                show (camelToSnakeCaseString field ++ " " ++ op ++ "\nAND\n" ++
                  joinSep "\nAND\n" (l1 :: ls)).data = _
                simp [String.data_append, camelToSnakeCaseString_data, List.append_assoc]
              rw [hall, scan_null_line _ _ _ hand hopnd,
                scan_plain_append _ _ (by decide : ∀ c ∈ ['\n', 'A', 'N', 'D', '\n'], c ≠ '$')]
              have hih := ih (c + List.length ([] : List Param)) (l1 :: ls) ps2 hnoin' hnd' heq2
              simp only [List.length_nil, Nat.add_zero] at hih
              simpa using hih
          · rw [if_neg hnull] at heq
            by_cases hinop : op = "IN" ∨ op = "NOT IN"
            · exfalso
              rcases hinop with hx | hx <;> simp [isInOpKey, heqpk, hx] at hkin
            · rw [if_neg hinop] at heq
              simp only [Except.ok.injEq, Prod.mk.injEq] at heq
              obtain ⟨hline, hnps⟩ := heq
              subst hline
              subst hnps
              cases lines2 with
              | nil =>
                have hrl := whereGo_length p rest _ [] ps2 heq2
                have hrest : rest = [] := by
                  cases rest with
                  | nil => rfl
                  | cons r rs => simp at hrl
                subst hrest
                have hps2 : ps2 = [] := by
                  simp only [whereGo, Except.ok.injEq, Prod.mk.injEq] at heq2
                  exact heq2.2.symm
                subst hps2
                have hall : (joinSep "\nAND\n" [camelToSnakeCaseString field ++ " " ++ op ++
                    " $" ++ natStr (c + 1 + p)]).data =
                    camelToSnake field.data ++ (' ' :: (op.data ++ (' ' :: '$' ::
                      (natToChars (c + 1 + p) ++ [])))) := by
                  show (camelToSnakeCaseString field ++ " " ++ op ++ " $" ++
                    natStr (c + 1 + p)).data = _
                  simp [String.data_append, camelToSnakeCaseString_data, List.append_assoc]
                  rfl
                rw [hall, scan_scalar_line _ _ _ ([] : List Char) hand hopnd trivial]
                have harith : c + 1 + p = c + p + 1 := by omega
                rw [harith]
                rfl
              | cons l1 ls =>
                have hall : (joinSep "\nAND\n" ((camelToSnakeCaseString field ++ " " ++ op ++
                    " $" ++ natStr (c + 1 + p)) :: l1 :: ls)).data =
                    camelToSnake field.data ++ (' ' :: (op.data ++ (' ' :: '$' ::
                      (natToChars (c + 1 + p) ++ (['\n', 'A', 'N', 'D', '\n'] ++
                        (joinSep "\nAND\n" (l1 :: ls)).data))))) := by
                  show (camelToSnakeCaseString field ++ " " ++ op ++ " $" ++ natStr (c + 1 + p) ++
                    "\nAND\n" ++ joinSep "\nAND\n" (l1 :: ls)).data = _
                  simp [String.data_append, camelToSnakeCaseString_data, List.append_assoc]
                  rfl
                rw [hall, scan_scalar_line _ _ _ (['\n', 'A', 'N', 'D', '\n'] ++
                      (joinSep "\nAND\n" (l1 :: ls)).data) hand hopnd
                    (show isDigitChar '\n' = false ∧ '\n' ≠ '$' from ⟨by decide, by decide⟩),
                  scan_plain_append _ _ (by decide : ∀ c ∈ ['\n', 'A', 'N', 'D', '\n'], c ≠ '$')]
                have hih := ih (c + List.length [Param.val v]) (l1 :: ls) ps2 hnoin' hnd' heq2
                simp only [List.length_singleton] at hih
                rw [hih]
                simp only [List.singleton_append, List.length_cons]
                rw [List.range'_succ]
                have h1 : c + 1 + p = c + p + 1 := by omega
                rw [h1]

/-- C2 counterexample: on `{"status:in": "a,b,c"}` the segment contains three
placeholders but the parameter sequence has length one — an IN entry reserves
one placeholder per list element while pushing the whole list as a single
parameter — so the claimed invariant fails. -/
theorem where_placeholder_invariant_fails :
    getWhereParams [("status:in", Value.vStr "a,b,c")] 0 =
      Except.ok ⟨"status IN ($1, $2, $3)", [Param.list ["a", "b", "c"]]⟩ ∧
    scanPlaceholders "status IN ($1, $2, $3)" = [1, 2, 3] ∧
    ([Param.list ["a", "b", "c"]] : List Param).length = 1 ∧ (3 : Nat) ≠ 1 := by
  exact ⟨by decide, by decide, rfl, by decide⟩

/-- C2 (amended): for an input mapping none of whose entries resolves to IN or
NOT IN, and whose keys contain no dollar sign, a successful `getWhereParams`
returns a segment whose positional placeholders are exactly the contiguous run
starting at `paramsOffset + 1` with one placeholder per returned parameter. -/
theorem getWhereParams_placeholder_invariant (l : List (String × Value)) (p : Nat)
    (hnoin : ∀ e ∈ l, isInOpKey e.1 = false)
    (hnd : ∀ e ∈ l, ∀ ch ∈ e.1.data, ch ≠ '$')
    (out : GetParamsForWhereOutput) (hok : getWhereParams l p = Except.ok out) :
    scanPlaceholders out.whereSegment = List.range' (p + 1) out.whereParams.length := by
  unfold getWhereParams at hok
  split at hok
  next e2 heq => simp at hok
  next lines ps heq =>
    simp only [Except.ok.injEq] at hok
    rw [← hok]
    have h := whereGo_scan p l 0 lines ps hnoin hnd heq
    simpa using h

/-- C2 witness: a three-entry scalar-and-null mapping at offset 2 yields the
placeholders 3 and 4 — contiguous from the offset plus one, one per returned
parameter. -/
theorem getWhereParams_placeholder_invariant_example :
    scanPlaceholders "age >= $3\nAND\ndeleted_at IS NULL\nAND\nname LIKE $4" =
      List.range' 3 2 := by
  have h := getWhereParams_placeholder_invariant
    [("age:gte", Value.vInt 18), ("deletedAt:isNull", Value.vNull),
      ("name:like", Value.vStr "%x%")] 2 (by decide) (by decide)
    ⟨"age >= $3\nAND\ndeleted_at IS NULL\nAND\nname LIKE $4",
      [Param.val (Value.vInt 18), Param.val (Value.vStr "%x%")]⟩ (by decide)
  simpa using h

end WhereInvariant

end PgUtils
